import Mathlib

/-!
# BLEU scorer: shallow embedding of `eval/bleu.py`

Tokens are strings.  Python float arithmetic is modelled exactly: the
modified n-gram precision is a rational number, and the brevity penalty
and final score (which use `exp` / `log`) are real numbers.  A Python
exception — `ZeroDivisionError` in `brevity_penalty`, or `min` applied
to an empty sequence — is modelled by `none`; a normal return is `some`.
-/

abbrev Token := String

/-- Python `str.lower` (ASCII case folding, per character). -/
def strLower (s : String) : String := String.mk (s.data.map Char.toLower)

/-- Python `str.upper` (ASCII case folding, per character). -/
def strUpper (s : String) : String := String.mk (s.data.map Char.toUpper)

/-- `nltk.util.ngrams`: the ordered list of all contiguous `n`-token
windows of the sequence (empty when the sequence has fewer than `n`
tokens). -/
def ngrams (sequence : List Token) (n : Nat) : List (List Token) :=
  (List.range (sequence.length + 1 - n)).map fun i => (sequence.drop i).take n

/-- `BLEU.modified_precision`.  The Python `for word in c_words` loop
overwrites `count_w` and `count_max` on every iteration, so only the
values computed for the last visited distinct n-gram survive the loop;
the iteration over the set `c_words = set(candidate_ngrams)` is modelled
by iterating over `candidate_ngrams.dedup`. -/
def modified_precision (candidate : List Token) (references : List (List Token))
    (n : Nat) : ℚ :=
  let candidate_ngrams := ngrams candidate n
  if candidate_ngrams.length = 0 then 0
  else
    let c_words := candidate_ngrams.dedup
    let last := c_words.foldl
      (fun _ word =>
        (candidate_ngrams.count word + 1,
         references.foldl
           (fun count_max reference =>
             let count := (ngrams reference n).count word + 1
             if count > count_max then count else count_max)
           0))
      (0, 0)
    ((min last.1 last.2 : ℕ) : ℚ) / ((candidate.length + c_words.length : ℕ) : ℚ)

/-- `BLEU.brevity_penalty`.  `none` models the `ValueError` raised by
`min` on an empty references list and the `ZeroDivisionError` raised by
`r/c` when the candidate is empty. -/
noncomputable def brevity_penalty (candidate : List Token)
    (references : List (List Token)) : Option ℝ :=
  let c := candidate.length
  let lengthes_ref := references.map fun x => ((x.length : ℤ) - (c : ℤ)).natAbs
  match lengthes_ref with
  | [] => none
  | d :: ds =>
    let r := ds.foldl min d
    if c > r then some 1
    else if c = 0 then none
    else some (Real.exp (1 - (r : ℝ) / (c : ℝ)))

/-- The accumulation loop of `BLEU.compute`: starting at order `i`, one
weight per order, terms with zero modified precision are skipped. -/
noncomputable def precisionLogSum (candidate : List Token)
    (references : List (List Token)) : Nat → List ℝ → ℝ
  | _, [] => 0
  | i, weight :: rest =>
    let p_n := modified_precision candidate references i
    (if p_n ≠ 0 then weight * Real.log (p_n : ℝ) else 0) +
      precisionLogSum candidate references (i + 1) rest

/-- `BLEU.compute`: lower-case all tokens, compute the brevity penalty,
accumulate the weighted logs of the non-zero modified precisions at
orders `1 .. len weights`, and return `bp * exp s`.  A failure of
`brevity_penalty` propagates. -/
noncomputable def compute (candidate : List Token)
    (references : List (List Token)) (weights : List ℝ) : Option ℝ :=
  let candidate := candidate.map strLower
  let references := references.map fun x => x.map strLower
  match brevity_penalty candidate references with
  | none => none
  | some bp => some (bp * Real.exp (precisionLogSum candidate references 1 weights))

/-! ## Basic facts about `ngrams` -/

lemma ngrams_length (s : List Token) (n : Nat) :
    (ngrams s n).length = s.length + 1 - n := by
  simp [ngrams]

lemma ngrams_ne_nil {s : List Token} {n : Nat} (hs : n ≤ s.length) :
    ngrams s n ≠ [] := by
  apply List.ne_nil_of_length_pos
  rw [ngrams_length]; omega

lemma ngrams_eq_nil {s : List Token} {n : Nat} (hs : s.length < n) :
    ngrams s n = [] := by
  apply List.eq_nil_of_length_eq_zero
  rw [ngrams_length]; omega

/-! ## Folding helpers

The Python loops of `modified_precision` and `brevity_penalty` are
`foldl`s; these lemmas characterise their results. -/

lemma foldl_const_getLast {α β : Type _} (g : α → β) (l : List α) (h : l ≠ [])
    (init : β) : l.foldl (fun _ x => g x) init = g (l.getLast h) := by
  induction l generalizing init with
  | nil => exact absurd rfl h
  | cons x t ih =>
    cases t with
    | nil => rfl
    | cons y s =>
      rw [List.foldl_cons, ih (List.cons_ne_nil y s)]
      congr 1

lemma getLastD_eq_getLast {α : Type _} (l : List α) (h : l ≠ []) (d : α) :
    l.getLastD d = l.getLast h := by
  rw [List.getLastD_eq_getLast?, List.getLast?_eq_getLast l h, Option.getD_some]

lemma if_gt_eq_max (a b : ℕ) : (if b > a then b else a) = max a b := by
  rcases Nat.lt_or_ge a b with h | h
  · rw [if_pos h, Nat.max_eq_right (Nat.le_of_lt h)]
  · rw [if_neg (Nat.not_lt.mpr h), Nat.max_eq_left h]

lemma le_foldl_max (l : List ℕ) (a : ℕ) : a ≤ l.foldl max a := by
  induction l generalizing a with
  | nil => exact Nat.le_refl a
  | cons x t ih => exact Nat.le_trans (Nat.le_max_left a x) (ih (max a x))

lemma mem_le_foldl_max (x : ℕ) :
    ∀ (l : List ℕ) (a : ℕ), x ∈ l → x ≤ l.foldl max a
  | y :: t, a, hx => by
    rcases List.mem_cons.mp hx with h | h
    · subst h
      exact Nat.le_trans (Nat.le_max_right a x) (le_foldl_max t _)
    · exact mem_le_foldl_max x t (max a y) h

lemma foldl_max_eq_or_mem :
    ∀ (l : List ℕ) (a : ℕ), l.foldl max a = a ∨ l.foldl max a ∈ l
  | [], _ => Or.inl rfl
  | x :: t, a => by
    rw [List.foldl_cons]
    rcases foldl_max_eq_or_mem t (max a x) with h | h
    · rw [h]
      rcases Nat.le_total a x with hle | hle
      · exact Or.inr (by rw [Nat.max_eq_right hle]; exact List.mem_cons_self x t)
      · exact Or.inl (Nat.max_eq_left hle)
    · exact Or.inr (List.mem_cons_of_mem x h)

lemma foldl_min_le_init : ∀ (l : List ℕ) (a : ℕ), l.foldl min a ≤ a
  | [], a => Nat.le_refl a
  | x :: t, a =>
    Nat.le_trans (foldl_min_le_init t (min a x)) (Nat.min_le_left a x)

lemma foldl_min_le_mem (x : ℕ) :
    ∀ (l : List ℕ) (a : ℕ), x ∈ l → l.foldl min a ≤ x
  | y :: t, a, hx => by
    rcases List.mem_cons.mp hx with h | h
    · subst h
      exact Nat.le_trans (foldl_min_le_init t (min a x)) (Nat.min_le_right a x)
    · exact foldl_min_le_mem x t (min a y) h

lemma foldl_min_eq_or_mem :
    ∀ (l : List ℕ) (a : ℕ), l.foldl min a = a ∨ l.foldl min a ∈ l
  | [], _ => Or.inl rfl
  | x :: t, a => by
    rw [List.foldl_cons]
    rcases foldl_min_eq_or_mem t (min a x) with h | h
    · rw [h]
      rcases Nat.le_total a x with hle | hle
      · exact Or.inl (Nat.min_eq_left hle)
      · exact Or.inr (by rw [Nat.min_eq_right hle]; exact List.mem_cons_self x t)
    · exact Or.inr (List.mem_cons_of_mem x h)

/-! ## The shape of `modified_precision` past the empty-n-gram guard -/

lemma modified_precision_eq_zero_of_short {candidate : List Token}
    (references : List (List Token)) {n : Nat} (hlen : candidate.length < n) :
    modified_precision candidate references n = 0 := by
  unfold modified_precision
  rw [ngrams_eq_nil hlen]
  rfl

lemma foldl_if_max (references : List (List Token)) (n : Nat) (w : List Token) :
    ∀ a : ℕ,
      references.foldl
        (fun count_max reference =>
          let count := (ngrams reference n).count w + 1
          if count > count_max then count else count_max) a =
      references.foldl
        (fun count_max reference =>
          max count_max ((ngrams reference n).count w + 1)) a := by
  induction references with
  | nil => intro a; rfl
  | cons r t ih =>
    intro a
    rw [List.foldl_cons, List.foldl_cons, ih, if_gt_eq_max]

lemma mp_formula (candidate : List Token) (references : List (List Token))
    (n : Nat) (h : ngrams candidate n ≠ []) :
    modified_precision candidate references n =
      ((min ((ngrams candidate n).count ((ngrams candidate n).dedup.getLastD []) + 1)
          (references.foldl
            (fun count_max reference =>
              max count_max
                ((ngrams reference n).count
                  ((ngrams candidate n).dedup.getLastD []) + 1)) 0) : ℕ) : ℚ) /
        ((candidate.length + (ngrams candidate n).dedup.length : ℕ) : ℚ) := by
  have hd : (ngrams candidate n).dedup ≠ [] := by
    rw [ne_eq, List.dedup_eq_nil]; exact h
  unfold modified_precision
  rw [if_neg (by simpa using h)]
  dsimp only
  rw [foldl_const_getLast
    (fun word =>
      ((ngrams candidate n).count word + 1,
        references.foldl
          (fun count_max reference =>
            let count := (ngrams reference n).count word + 1
            if count > count_max then count else count_max) 0))
    (ngrams candidate n).dedup hd]
  rw [getLastD_eq_getLast (ngrams candidate n).dedup hd]
  rw [foldl_if_max]

lemma refs_foldl_max_attained (references : List (List Token)) (n : Nat)
    (w : List Token) (href : references ≠ []) :
    (∃ ref ∈ references,
      references.foldl
        (fun count_max reference =>
          max count_max ((ngrams reference n).count w + 1)) 0 =
        (ngrams ref n).count w + 1) ∧
    (∀ ref ∈ references,
      (ngrams ref n).count w + 1 ≤
        references.foldl
          (fun count_max reference =>
            max count_max ((ngrams reference n).count w + 1)) 0) := by
  have hmapped :
      references.foldl
        (fun count_max reference =>
          max count_max ((ngrams reference n).count w + 1)) 0 =
        (references.map fun ref => (ngrams ref n).count w + 1).foldl max 0 :=
    (List.foldl_map _ _ _ _).symm
  constructor
  · rcases foldl_max_eq_or_mem
        (references.map fun ref => (ngrams ref n).count w + 1) 0 with h0 | hmem
    · exfalso
      obtain ⟨r0, t, rfl⟩ := List.exists_cons_of_ne_nil href
      have hle : (ngrams r0 n).count w + 1 ≤
          ((r0 :: t).map fun ref => (ngrams ref n).count w + 1).foldl max 0 :=
        mem_le_foldl_max _ _ _ (by simp)
      omega
    · obtain ⟨ref, hrm, hfr⟩ := List.mem_map.mp hmem
      exact ⟨ref, hrm, by rw [hmapped, hfr]⟩
  · intro ref href
    rw [hmapped]
    exact mem_le_foldl_max _ _ _ (List.mem_map_of_mem _ href)

/-- C1: for a candidate with at least `n` tokens (`n ≥ 1`) and non-empty
references, `modified_precision` returns
`min(count(w) + 1, max over references of (count of w in that reference) + 1)
 / (len(candidate) + number of distinct candidate n-grams)`,
where `w` is the single last distinct candidate n-gram visited by the
loop; no other distinct n-gram contributes to the numerator. -/
theorem modified_precision_uses_last_distinct_ngram (candidate : List Token)
    (references : List (List Token)) (n : Nat) (hn : 1 ≤ n)
    (hlen : n ≤ candidate.length) (href : references ≠ []) :
    ∃ M : ℕ,
      (∃ ref ∈ references,
        M = (ngrams ref n).count ((ngrams candidate n).dedup.getLastD []) + 1) ∧
      (∀ ref ∈ references,
        (ngrams ref n).count ((ngrams candidate n).dedup.getLastD []) + 1 ≤ M) ∧
      modified_precision candidate references n =
        ((min ((ngrams candidate n).count
              ((ngrams candidate n).dedup.getLastD []) + 1) M : ℕ) : ℚ) /
          ((candidate.length : ℚ) + ((ngrams candidate n).toFinset.card : ℚ)) := by
  have h : ngrams candidate n ≠ [] := ngrams_ne_nil hlen
  obtain ⟨hatt, hbound⟩ :=
    refs_foldl_max_attained references n
      ((ngrams candidate n).dedup.getLastD []) href
  refine ⟨references.foldl
      (fun count_max reference =>
        max count_max
          ((ngrams reference n).count
            ((ngrams candidate n).dedup.getLastD []) + 1)) 0, ?_, hbound, ?_⟩
  · obtain ⟨ref, hrm, hfr⟩ := hatt
    exact ⟨ref, hrm, hfr⟩
  · rw [mp_formula candidate references n h, List.card_toFinset]
    push_cast
    ring

/-- C8: whenever the candidate has fewer than `n` tokens (`n ≥ 1`), no
n-gram can be formed and `modified_precision` returns exactly 0. -/
theorem modified_precision_short_candidate (candidate : List Token)
    (references : List (List Token)) (n : Nat) (hn : 1 ≤ n)
    (hlen : candidate.length < n) :
    modified_precision candidate references n = 0 :=
  modified_precision_eq_zero_of_short references hlen

theorem modified_precision_short_candidate_witness :
    1 ≤ 2 ∧ (["a"] : List Token).length < 2 ∧
      modified_precision ["a"] [["a"]] 2 = 0 :=
  ⟨by decide, by decide,
    modified_precision_short_candidate ["a"] [["a"]] 2 (by decide) (by decide)⟩

/-- C9: for a candidate with at least `n` tokens (`n ≥ 1`) and non-empty
references, `modified_precision` returns a value strictly between 0
(exclusive) and 1 (inclusive). -/
theorem modified_precision_pos_le_one (candidate : List Token)
    (references : List (List Token)) (n : Nat) (hn : 1 ≤ n)
    (hlen : n ≤ candidate.length) (href : references ≠ []) :
    0 < modified_precision candidate references n ∧
      modified_precision candidate references n ≤ 1 := by
  have h : ngrams candidate n ≠ [] := ngrams_ne_nil hlen
  have hd : (ngrams candidate n).dedup ≠ [] := by
    rw [ne_eq, List.dedup_eq_nil]; exact h
  have hdlen : 0 < (ngrams candidate n).dedup.length := List.length_pos.mpr hd
  obtain ⟨_, hbound⟩ :=
    refs_foldl_max_attained references n
      ((ngrams candidate n).dedup.getLastD []) href
  obtain ⟨r0, t, rfl⟩ := List.exists_cons_of_ne_nil href
  have hM1 : 1 ≤ (r0 :: t).foldl
      (fun count_max reference =>
        max count_max
          ((ngrams reference n).count
            ((ngrams candidate n).dedup.getLastD []) + 1)) 0 := by
    have := hbound r0 (List.mem_cons_self r0 t)
    omega
  have hcount : (ngrams candidate n).count
      ((ngrams candidate n).dedup.getLastD []) ≤ (ngrams candidate n).length :=
    List.count_le_length _ _
  have hng : (ngrams candidate n).length = candidate.length + 1 - n :=
    ngrams_length candidate n
  rw [mp_formula candidate (r0 :: t) n h]
  have hden : 0 < candidate.length + (ngrams candidate n).dedup.length := by omega
  constructor
  · apply div_pos
    · have : (0 : ℕ) < min ((ngrams candidate n).count
          ((ngrams candidate n).dedup.getLastD []) + 1)
          ((r0 :: t).foldl
            (fun count_max reference =>
              max count_max
                ((ngrams reference n).count
                  ((ngrams candidate n).dedup.getLastD []) + 1)) 0) := by
        omega
      exact_mod_cast this
    · exact_mod_cast hden
  · rw [div_le_one (by exact_mod_cast hden)]
    have hnum : min ((ngrams candidate n).count
        ((ngrams candidate n).dedup.getLastD []) + 1)
        ((r0 :: t).foldl
          (fun count_max reference =>
            max count_max
              ((ngrams reference n).count
                ((ngrams candidate n).dedup.getLastD []) + 1)) 0) ≤
        candidate.length + (ngrams candidate n).dedup.length := by
      omega
    exact_mod_cast hnum

theorem modified_precision_pos_le_one_witness :
    1 ≤ 1 ∧ 1 ≤ (["a", "b"] : List Token).length ∧
      ([["b"]] : List (List Token)) ≠ [] ∧
      (0 < modified_precision ["a", "b"] [["b"]] 1 ∧
        modified_precision ["a", "b"] [["b"]] 1 ≤ 1) :=
  ⟨by decide, by decide, by decide,
    modified_precision_pos_le_one ["a", "b"] [["b"]] 1
      (by decide) (by decide) (by decide)⟩

/-! ## Brevity penalty -/

lemma brevity_penalty_cons_eq (candidate : List Token) (r0 : List Token)
    (t : List (List Token)) :
    brevity_penalty candidate (r0 :: t) =
      (if candidate.length >
          ((t.map fun x => ((x.length : ℤ) - (candidate.length : ℤ)).natAbs).foldl
            min ((r0.length : ℤ) - (candidate.length : ℤ)).natAbs)
        then some (1 : ℝ)
        else if candidate.length = 0 then none
        else some (Real.exp (1 -
          (((t.map fun x => ((x.length : ℤ) - (candidate.length : ℤ)).natAbs).foldl
              min ((r0.length : ℤ) - (candidate.length : ℤ)).natAbs : ℕ) : ℝ) /
            (candidate.length : ℝ)))) := rfl

lemma brevity_penalty_some (candidate : List Token)
    (references : List (List Token)) (hc : candidate ≠ []) (hr : references ≠ []) :
    ∃ bp : ℝ, brevity_penalty candidate references = some bp := by
  obtain ⟨r0, t, rfl⟩ := List.exists_cons_of_ne_nil hr
  rw [brevity_penalty_cons_eq]
  set r := (t.map fun x => ((x.length : ℤ) - (candidate.length : ℤ)).natAbs).foldl
    min ((r0.length : ℤ) - (candidate.length : ℤ)).natAbs with hrdef
  by_cases h : candidate.length > r
  · exact ⟨1, by rw [if_pos h]⟩
  · refine ⟨Real.exp (1 - (r : ℝ) / (candidate.length : ℝ)), ?_⟩
    rw [if_neg h, if_neg fun h0 => hc (List.length_eq_zero.mp h0)]

lemma brevity_penalty_nil_candidate (references : List (List Token))
    (hr : references ≠ []) : brevity_penalty [] references = none := by
  obtain ⟨r0, t, rfl⟩ := List.exists_cons_of_ne_nil hr
  rw [brevity_penalty_cons_eq]
  rw [if_neg (by simp), if_pos List.length_nil]

/-- C4: for a non-empty candidate of length `c` and non-empty references,
`brevity_penalty` returns 1 when `c > r` and `exp(1 - r/c)` otherwise,
where `r` is the minimum over the references of `|len(reference) - c|`;
the returned value lies in `(0, 1]`. -/
theorem brevity_penalty_formula (candidate : List Token)
    (references : List (List Token)) (hc : candidate ≠ []) (hr : references ≠ []) :
    ∃ (r : ℕ) (bp : ℝ),
      (∃ ref ∈ references,
        r = ((ref.length : ℤ) - (candidate.length : ℤ)).natAbs) ∧
      (∀ ref ∈ references,
        r ≤ ((ref.length : ℤ) - (candidate.length : ℤ)).natAbs) ∧
      brevity_penalty candidate references = some bp ∧
      bp = (if r < candidate.length then (1 : ℝ)
            else Real.exp (1 - (r : ℝ) / (candidate.length : ℝ))) ∧
      0 < bp ∧ bp ≤ 1 := by
  obtain ⟨r0, t, rfl⟩ := List.exists_cons_of_ne_nil hr
  have hc0 : 0 < candidate.length := List.length_pos.mpr hc
  set d := ((r0.length : ℤ) - (candidate.length : ℤ)).natAbs with hd
  set ds := t.map fun x => ((x.length : ℤ) - (candidate.length : ℤ)).natAbs with hds
  set r := ds.foldl min d with hrdef
  have hmem : r ∈ d :: ds := by
    rcases foldl_min_eq_or_mem ds d with h | h
    · rw [hrdef, h]; exact List.mem_cons_self d ds
    · exact List.mem_cons_of_mem d h
  have hattain : ∃ ref ∈ r0 :: t,
      r = ((ref.length : ℤ) - (candidate.length : ℤ)).natAbs := by
    have : r ∈ (r0 :: t).map
        fun x => ((x.length : ℤ) - (candidate.length : ℤ)).natAbs := by
      rw [List.map_cons]; exact hmem
    obtain ⟨ref, hrm, hfr⟩ := List.mem_map.mp this
    exact ⟨ref, hrm, hfr.symm⟩
  have hlow : ∀ ref ∈ r0 :: t,
      r ≤ ((ref.length : ℤ) - (candidate.length : ℤ)).natAbs := by
    intro ref hrm
    rcases List.mem_cons.mp hrm with h | h
    · subst h; exact foldl_min_le_init ds d
    · exact foldl_min_le_mem _ ds d (by rw [hds]; exact List.mem_map_of_mem _ h)
  rw [brevity_penalty_cons_eq, ← hds, ← hd, ← hrdef]
  by_cases hgt : candidate.length > r
  · refine ⟨r, 1, hattain, hlow, by rw [if_pos hgt], by rw [if_pos hgt], ?_, ?_⟩
    · exact one_pos
    · exact le_refl 1
  · have hrc : candidate.length ≤ r := Nat.le_of_not_lt hgt
    refine ⟨r, Real.exp (1 - (r : ℝ) / (candidate.length : ℝ)), hattain, hlow,
      ?_, by rw [if_neg hgt], Real.exp_pos _, ?_⟩
    · rw [if_neg hgt, if_neg (Nat.pos_iff_ne_zero.mp hc0)]
    · calc Real.exp (1 - (r : ℝ) / (candidate.length : ℝ)) ≤ Real.exp 0 := by
            apply Real.exp_le_exp.mpr
            have h1 : (1 : ℝ) ≤ (r : ℝ) / (candidate.length : ℝ) := by
              rw [le_div_iff₀ (by exact_mod_cast hc0)]
              rw [one_mul]
              exact_mod_cast hrc
            linarith
        _ = 1 := Real.exp_zero

theorem brevity_penalty_formula_witness :
    (["a", "b"] : List Token) ≠ [] ∧ ([["a"]] : List (List Token)) ≠ [] ∧
      (∃ (r : ℕ) (bp : ℝ),
        (∃ ref ∈ ([["a"]] : List (List Token)),
          r = ((ref.length : ℤ) - ((["a", "b"] : List Token).length : ℤ)).natAbs) ∧
        (∀ ref ∈ ([["a"]] : List (List Token)),
          r ≤ ((ref.length : ℤ) - ((["a", "b"] : List Token).length : ℤ)).natAbs) ∧
        brevity_penalty ["a", "b"] [["a"]] = some bp ∧
        bp = (if r < (["a", "b"] : List Token).length then (1 : ℝ)
              else Real.exp (1 - (r : ℝ) / ((["a", "b"] : List Token).length : ℝ))) ∧
        0 < bp ∧ bp ≤ 1) :=
  ⟨by decide, by decide,
    brevity_penalty_formula ["a", "b"] [["a"]] (by decide) (by decide)⟩

/-- C5: with non-empty references and an empty candidate,
`brevity_penalty` hits a division by zero and `compute` propagates the
failure; no score (and in particular no infinity or NaN) is returned. -/
theorem empty_candidate_fails (references : List (List Token))
    (weights : List ℝ) (hr : references ≠ []) :
    brevity_penalty [] references = none ∧
      compute [] references weights = none := by
  refine ⟨brevity_penalty_nil_candidate references hr, ?_⟩
  unfold compute
  dsimp only [List.map_nil]
  rw [brevity_penalty_nil_candidate _
    fun h0 => hr (List.map_eq_nil_iff.mp h0)]

theorem empty_candidate_fails_witness :
    ([["a"]] : List (List Token)) ≠ [] ∧
      (brevity_penalty [] [["a"]] = none ∧ compute [] [["a"]] [1] = none) :=
  ⟨by decide, empty_candidate_fails [["a"]] [1] (by decide)⟩

/-- C10: with an empty references collection, the minimum in
`brevity_penalty` is taken over an empty sequence, so `brevity_penalty`
fails, and `compute` fails as well, for every candidate. -/
theorem empty_references_fails (candidate : List Token) (weights : List ℝ) :
    brevity_penalty candidate [] = none ∧
      compute candidate [] weights = none :=
  ⟨rfl, rfl⟩

/-! ## The weighted log-sum of `compute` -/

lemma precisionLogSum_eq_sum (candidate : List Token)
    (references : List (List Token)) :
    ∀ (weights : List ℝ) (k : Nat),
      precisionLogSum candidate references k weights =
        ∑ i ∈ Finset.range weights.length,
          (if modified_precision candidate references (k + i) ≠ 0
           then weights.getD i 0 *
             Real.log ((modified_precision candidate references (k + i) : ℚ) : ℝ)
           else 0)
  | [], k => by simp [precisionLogSum]
  | w :: rest, k => by
    rw [precisionLogSum, precisionLogSum_eq_sum candidate references rest (k + 1),
      List.length_cons, Finset.sum_range_succ', add_comm]
    congr 1
    refine Finset.sum_congr rfl fun i _ => ?_
    rw [show k + 1 + i = k + (i + 1) by omega]
    rfl

/-- C3: for non-empty candidate and references, `compute` returns
`bp * exp s` where `bp` is the brevity penalty of the lower-cased inputs
and `s` sums `weights[i-1] * ln p_i` over exactly those orders
`i = 1 .. len(weights)` with non-zero modified precision; a zero
precision contributes nothing and does not force the score to 0. -/
theorem compute_eq_bp_exp_logsum (candidate : List Token)
    (references : List (List Token)) (weights : List ℝ)
    (hc : candidate ≠ []) (hr : references ≠ []) :
    ∃ bp : ℝ,
      brevity_penalty (candidate.map strLower)
        (references.map fun x => x.map strLower) = some bp ∧
      compute candidate references weights =
        some (bp * Real.exp (∑ i ∈ Finset.range weights.length,
          if modified_precision (candidate.map strLower)
              (references.map fun x => x.map strLower) (1 + i) ≠ 0
          then weights.getD i 0 *
            Real.log ((modified_precision (candidate.map strLower)
              (references.map fun x => x.map strLower) (1 + i) : ℚ) : ℝ)
          else 0)) := by
  have hc' : candidate.map strLower ≠ [] :=
    fun h0 => hc (List.map_eq_nil_iff.mp h0)
  have hr' : (references.map fun x => x.map strLower) ≠ [] :=
    fun h0 => hr (List.map_eq_nil_iff.mp h0)
  obtain ⟨bp, hbp⟩ := brevity_penalty_some _ _ hc' hr'
  refine ⟨bp, hbp, ?_⟩
  have hmatch : compute candidate references weights =
      match brevity_penalty (candidate.map strLower)
          (references.map fun x => x.map strLower) with
      | none => none
      | some bp => some (bp * Real.exp (precisionLogSum (candidate.map strLower)
          (references.map fun x => x.map strLower) 1 weights)) := rfl
  rw [hmatch, hbp,
    precisionLogSum_eq_sum (candidate.map strLower)
      (references.map fun x => x.map strLower) weights 1]

theorem compute_eq_bp_exp_logsum_witness :
    (["a"] : List Token) ≠ [] ∧ ([["b"]] : List (List Token)) ≠ [] ∧
      (∃ bp : ℝ,
        brevity_penalty ((["a"] : List Token).map strLower)
          (([["b"]] : List (List Token)).map fun x => x.map strLower) = some bp ∧
        compute ["a"] [["b"]] [1] =
          some (bp * Real.exp (∑ i ∈ Finset.range ([(1 : ℝ)]).length,
            if modified_precision ((["a"] : List Token).map strLower)
                (([["b"]] : List (List Token)).map fun x => x.map strLower)
                (1 + i) ≠ 0
            then ([(1 : ℝ)]).getD i 0 *
              Real.log ((modified_precision ((["a"] : List Token).map strLower)
                (([["b"]] : List (List Token)).map fun x => x.map strLower)
                (1 + i) : ℚ) : ℝ)
            else 0))) :=
  ⟨by decide, by decide,
    compute_eq_bp_exp_logsum ["a"] [["b"]] [1] (by decide) (by decide)⟩

theorem modified_precision_uses_last_distinct_ngram_witness :
    1 ≤ 1 ∧ 1 ≤ (["a", "b"] : List Token).length ∧
      ([["b"]] : List (List Token)) ≠ [] ∧
      (∃ M : ℕ,
        (∃ ref ∈ ([["b"]] : List (List Token)),
          M = (ngrams ref 1).count ((ngrams ["a", "b"] 1).dedup.getLastD []) + 1) ∧
        (∀ ref ∈ ([["b"]] : List (List Token)),
          (ngrams ref 1).count ((ngrams ["a", "b"] 1).dedup.getLastD []) + 1 ≤ M) ∧
        modified_precision ["a", "b"] [["b"]] 1 =
          ((min ((ngrams ["a", "b"] 1).count
              ((ngrams ["a", "b"] 1).dedup.getLastD []) + 1) M : ℕ) : ℚ) /
            (((["a", "b"] : List Token).length : ℚ) +
              ((ngrams ["a", "b"] 1).toFinset.card : ℚ))) :=
  ⟨by decide, by decide, by decide,
    modified_precision_uses_last_distinct_ngram ["a", "b"] [["b"]] 1
      (by decide) (by decide) (by decide)⟩


/-! ## ASCII case folding -/

lemma toNat_ofNat_valid {n : Nat} (h : n.isValidChar) :
    (Char.ofNat n).toNat = n := by
  rw [Char.ofNat, dif_pos h]
  rfl

lemma char_toLower_eq (c : Char) :
    c.toLower = if c.toNat ≥ 65 ∧ c.toNat ≤ 90 then Char.ofNat (c.toNat + 32)
                else c := rfl

lemma char_toUpper_eq (c : Char) :
    c.toUpper = if c.toNat ≥ 97 ∧ c.toNat ≤ 122 then Char.ofNat (c.toNat - 32)
                else c := rfl

lemma char_toLower_toUpper (c : Char) : c.toUpper.toLower = c.toLower := by
  by_cases h : c.toNat ≥ 97 ∧ c.toNat ≤ 122
  · have hup : c.toUpper = Char.ofNat (c.toNat - 32) := by
      rw [char_toUpper_eq, if_pos h]
    have ht : (Char.ofNat (c.toNat - 32)).toNat = c.toNat - 32 :=
      toNat_ofNat_valid (Or.inl (by omega))
    rw [hup, char_toLower_eq, ht, if_pos (by omega),
      show c.toNat - 32 + 32 = c.toNat by omega, Char.ofNat_toNat,
      char_toLower_eq c, if_neg (by omega)]
  · rw [char_toUpper_eq, if_neg h]

lemma char_toLower_toLower (c : Char) : c.toLower.toLower = c.toLower := by
  by_cases h : c.toNat ≥ 65 ∧ c.toNat ≤ 90
  · have hlo : c.toLower = Char.ofNat (c.toNat + 32) := by
      rw [char_toLower_eq, if_pos h]
    have ht : (Char.ofNat (c.toNat + 32)).toNat = c.toNat + 32 :=
      toNat_ofNat_valid (Or.inl (by omega))
    rw [hlo, char_toLower_eq (Char.ofNat (c.toNat + 32)), ht,
      if_neg (by omega)]
  · have hlo : c.toLower = c := by rw [char_toLower_eq, if_neg h]
    rw [hlo, hlo]

lemma strLower_strUpper (s : String) : strLower (strUpper s) = strLower s := by
  unfold strLower strUpper
  apply congrArg String.mk
  rw [List.map_map]
  exact List.map_congr_left fun c _ => char_toLower_toUpper c

lemma strLower_strLower (s : String) : strLower (strLower s) = strLower s := by
  unfold strLower
  apply congrArg String.mk
  rw [List.map_map]
  exact List.map_congr_left fun c _ => char_toLower_toLower c

lemma map_strLower_strUpper (l : List Token) :
    (l.map strUpper).map strLower = l.map strLower := by
  rw [List.map_map]
  exact List.map_congr_left fun s _ => strLower_strUpper s

lemma map_strLower_strLower (l : List Token) :
    (l.map strLower).map strLower = l.map strLower := by
  rw [List.map_map]
  exact List.map_congr_left fun s _ => strLower_strLower s

/-- C7: `compute` lower-cases the candidate and every reference before
any other step, so it is invariant under case changes of its inputs:
upper-casing candidate and reference gives the same score as
lower-casing them. -/
theorem compute_case_invariant (A B : List Token) (w : List ℝ)
    (hA : A ≠ []) :
    compute (A.map strUpper) [B.map strUpper] w =
      compute (A.map strLower) [B.map strLower] w := by
  unfold compute
  dsimp only [List.map_cons, List.map_nil]
  rw [map_strLower_strUpper A, map_strLower_strLower A,
    map_strLower_strUpper B, map_strLower_strLower B]

theorem compute_case_invariant_witness :
    (["a"] : List Token) ≠ [] ∧
      compute ((["a"] : List Token).map strUpper)
          [(["b"] : List Token).map strUpper] [1] =
        compute ((["a"] : List Token).map strLower)
          [(["b"] : List Token).map strLower] [1] :=
  ⟨by decide, compute_case_invariant ["a"] ["b"] [1] (by decide)⟩

/-- C6 counterexample: `modified_precision` itself performs no case
normalization, so changing the case of the inputs (here upper-casing
candidate `["a"]` and reference `[["A"]]`) changes its value from 1/2
to 1. -/
theorem modified_precision_not_case_insensitive :
    modified_precision ((["a"] : List Token).map strUpper)
        (([["A"]] : List (List Token)).map (List.map strUpper)) 1 ≠
      modified_precision ["a"] [["A"]] 1 := by
  have h1 : (["a"] : List Token).map strUpper = ["A"] := by decide
  have h2 : ([["A"]] : List (List Token)).map (List.map strUpper) = [["A"]] := by
    decide
  rw [h1, h2]
  have e1 : modified_precision ["A"] [["A"]] 1 = ((2 : ℕ) : ℚ) / ((2 : ℕ) : ℚ) :=
    rfl
  have e2 : modified_precision ["a"] [["A"]] 1 = ((1 : ℕ) : ℚ) / ((2 : ℕ) : ℚ) :=
    rfl
  rw [e1, e2]
  norm_num

/-- C6 (amended): only `compute` is case-insensitive — it lower-cases
its inputs before n-gram extraction; the exposed `modified_precision`
does no case normalization (see the counterexample), but the lower-cas
precision that `compute` evaluates is invariant under prior case
changes of candidate and references. -/
theorem modified_precision_after_lowercasing (candidate : List Token)
    (references : List (List Token)) (n : Nat) :
    modified_precision ((candidate.map strUpper).map strLower)
        ((references.map (List.map strUpper)).map (List.map strLower)) n =
      modified_precision (candidate.map strLower)
        (references.map (List.map strLower)) n := by
  rw [map_strLower_strUpper]
  congr 1
  rw [List.map_map]
  exact List.map_congr_left fun r _ => map_strLower_strUpper r


/-! ## Self-comparison -/

lemma modified_precision_self_single (x : Token) :
    modified_precision [x] [[x]] 1 = 1 := by
  have hng : ngrams [x] 1 = [[x]] := rfl
  have hne : ngrams [x] 1 ≠ [] := by rw [hng]; exact List.cons_ne_nil _ _
  rw [mp_formula [x] [[x]] 1 hne]
  simp [hng]

lemma precisionLogSum_self_single_ge_two (x : Token) :
    ∀ (ws : List ℝ) (i : Nat), 2 ≤ i → precisionLogSum [x] [[x]] i ws = 0
  | [], _, _ => rfl
  | w :: rest, i, hi => by
    have hz : modified_precision [x] [[x]] i = 0 :=
      modified_precision_eq_zero_of_short _
        (by simp only [List.length_cons, List.length_nil]; omega)
    rw [precisionLogSum,
      precisionLogSum_self_single_ge_two x rest (i + 1) (by omega)]
    rw [hz]
    simp

lemma precisionLogSum_self_single (x : Token) (ws : List ℝ) :
    precisionLogSum [x] [[x]] 1 ws = 0 := by
  cases ws with
  | nil => rfl
  | cons w rest =>
    rw [precisionLogSum,
      precisionLogSum_self_single_ge_two x rest 2 (by omega)]
    rw [modified_precision_self_single]
    simp

lemma compute_self_single (t : Token) (weights : List ℝ) :
    compute [t] [[t]] weights = some 1 := by
  have hbp : brevity_penalty [strLower t] [[strLower t]] = some 1 := by
    rw [brevity_penalty_cons_eq]
    simp
  have hmatch : compute [t] [[t]] weights =
      match brevity_penalty [strLower t] [[strLower t]] with
      | none => none
      | some bp => some (bp * Real.exp
          (precisionLogSum [strLower t] [[strLower t]] 1 weights)) := rfl
  rw [hmatch, hbp, precisionLogSum_self_single]
  simp

/-- C2 (amended): comparing a non-empty sequence `A` against itself
gives brevity penalty 1, but the modified precisions need not be 1 and
the score need not be ≈ 1 (see the counterexample, which scores 1/2);
the score is exactly 1 for a single-token candidate, with any weights. -/
theorem compute_self_brevity_one_and_single_one :
    (∀ A : List Token, A ≠ [] → brevity_penalty A [A] = some 1) ∧
    (∀ (t : Token) (weights : List ℝ), compute [t] [[t]] weights = some 1) := by
  constructor
  · intro A hA
    rw [brevity_penalty_cons_eq]
    rw [if_pos]
    simp only [List.map_nil, List.foldl_nil, sub_self, Int.natAbs_zero]
    exact List.length_pos.mpr hA
  · exact fun t ws => compute_self_single t ws

theorem compute_self_brevity_one_and_single_one_witness :
    (["a"] : List Token) ≠ [] ∧
      brevity_penalty ["a"] [["a"]] = some 1 ∧
      compute ["b"] [["b"]] [1, 2] = some 1 :=
  ⟨by decide,
    compute_self_brevity_one_and_single_one.1 ["a"] (by decide),
    compute_self_brevity_one_and_single_one.2 "b" [1, 2]⟩

/-- C2 counterexample: for `A = ["a", "b"]` with the admissible weight
vector `[1]` (non-negative, summing to 1), `compute(A, [A], [1])`
returns 1/2, not ≈ 1: the order-1 modified precision of `A` against
itself is 1/2, not 1. -/
theorem compute_self_pair_is_half :
    ([(1 : ℝ)].sum = 1) ∧
    modified_precision ["a", "b"] [["a", "b"]] 1 ≠ 1 ∧
    compute ["a", "b"] [["a", "b"]] [1] = some (1 / 2) ∧
    ¬ ((1 : ℝ) / 2 ≥ 3 / 4) := by
  refine ⟨by norm_num, ?_, ?_, by norm_num⟩
  · have e : modified_precision ["a", "b"] [["a", "b"]] 1 =
        ((2 : ℕ) : ℚ) / ((4 : ℕ) : ℚ) := rfl
    rw [e]; norm_num
  · have hmatch : compute ["a", "b"] [["a", "b"]] [1] =
        match brevity_penalty ((["a", "b"] : List Token).map strLower)
            (([["a", "b"]] : List (List Token)).map fun x => x.map strLower) with
        | none => none
        | some bp => some (bp * Real.exp
            (precisionLogSum ((["a", "b"] : List Token).map strLower)
              (([["a", "b"]] : List (List Token)).map fun x => x.map strLower)
              1 [1])) := rfl
    rw [hmatch,
      show (["a", "b"] : List Token).map strLower = ["a", "b"] from by decide,
      show ([["a", "b"]] : List (List Token)).map (fun x => x.map strLower) =
        [["a", "b"]] from by decide]
    have hbp : brevity_penalty ["a", "b"] [["a", "b"]] = some 1 := by
      rw [brevity_penalty_cons_eq]
      norm_num
    have hp : modified_precision ["a", "b"] [["a", "b"]] 1 = 1 / 2 := by
      have e : modified_precision ["a", "b"] [["a", "b"]] 1 =
          ((2 : ℕ) : ℚ) / ((4 : ℕ) : ℚ) := rfl
      rw [e]; norm_num
    have hlog : precisionLogSum ["a", "b"] [["a", "b"]] 1 [1] =
        Real.log (((1 / 2 : ℚ) : ℚ) : ℝ) := by
      rw [precisionLogSum]
      rw [hp]
      norm_num [precisionLogSum]
    rw [hbp, hlog]
    rw [show (((1 / 2 : ℚ) : ℚ) : ℝ) = 1 / 2 from by norm_num,
      Real.exp_log (by norm_num : (0 : ℝ) < 1 / 2)]
    norm_num
